import Mathlib

/-!
Shallow embedding of the `influxdb2_client` line-protocol core
(`src/influxdb2_client/src/lib.rs`): the escaping engine (`Escaped<K>`
with `EscapingSpecification::DELIMITERS`), the `FieldValue` type,
`DataPointBuilder`, `DataPoint` and the `LineProtocol` serializer.

Rust strings are modelled as Lean `String` (a sequence of unicode scalar
values); `BTreeMap` is modelled as an association list kept strictly
sorted by key, with `mapInsert` playing the role of `BTreeMap::insert`
(replacing the stored value and keeping the stored key when the key is
already present, exactly as `BTreeMap::insert` does). Keys are ordered
the way `impl Ord for Escaped<K>` orders them: by the raw string.
Rust compares strings byte-wise over their UTF-8 encodings, which gives
the same order as lexicographic comparison of scalar-value sequences,
so keys are compared with the lexicographic order on `List Char`.
-/

namespace Influxdb2Client

/-- Escaping categories: the phantom type parameters of `Escaped<K>` in the
source (`Measurement`, `TagKey`, `FieldValueString`; the specification calls
the second `TagKeyOrValue` and the third `FieldValueStringLiteral`). -/
inductive EscKind where
  | Measurement
  | TagKey
  | FieldValueString
deriving DecidableEq

/-- The `EscapingSpecification::DELIMITERS` constant of each category. -/
def DELIMITERS : EscKind → List Char
  | .Measurement => [',', ' ']
  | .TagKey => [',', '=', ' ']
  | .FieldValueString => ['"']

/-- The `Escaped<K>` wrapper: stores the raw string; escaping happens only at
render time. -/
structure Escaped (K : EscKind) where
  raw : String
deriving DecidableEq

/-- Construction of `Escaped<K>` (`impl From<&str> / From<String>`): total,
stores the raw string unchanged. -/
def Escaped.fromString {K : EscKind} (s : String) : Escaped K := ⟨s⟩

/-- The comparison `impl Ord for Escaped<K>` delegates to: the order of the
raw strings (see the module docstring for why this is the lexicographic
order on the scalar-value sequences). -/
def Escaped.ltRaw {K : EscKind} (a b : Escaped K) : Prop :=
  a.raw.data < b.raw.data

instance {K : EscKind} (a b : Escaped K) : Decidable (a.ltRaw b) :=
  inferInstanceAs (Decidable (a.raw.data < b.raw.data))

/-- `BTreeMap::insert` on the sorted-association-list model of `BTreeMap`:
keys are ordered by raw content; when the key is already present the stored
value is replaced and the stored key is kept. -/
def mapInsert {K : EscKind} {β : Type} (k : Escaped K) (v : β) :
    List (Escaped K × β) → List (Escaped K × β)
  | [] => [(k, v)]
  | (q, w) :: m =>
    if k.ltRaw q then (k, v) :: (q, w) :: m
    else if k.raw = q.raw then (q, v) :: m
    else (q, w) :: mapInsert k v m

/-- Lookup in the association-list model of `BTreeMap`, keyed by the raw
content of the `Escaped` keys. -/
def mapLookup {K : EscKind} {β : Type} (key : String) :
    List (Escaped K × β) → Option β
  | [] => none
  | (q, w) :: m => if key = q.raw then some w else mapLookup key m

/-- Positions and characters of the delimiter occurrences in a string,
starting the position count at `i`: the model of `str::match_indices` with
the `DELIMITERS` char-slice pattern, which visits every occurrence of any
delimiter character, left to right. Positions count scalar values; in the
source they are byte offsets, and since both sides advance through the same
characters in the same order, the two ways of counting single out the same
occurrences. -/
def matchIndicesAux (delims : List Char) : List Char → Nat → List (Nat × Char)
  | [], _ => []
  | c :: rest, i =>
    if c ∈ delims then (i, c) :: matchIndicesAux delims rest (i + 1)
    else matchIndicesAux delims rest (i + 1)

/-- `str::match_indices` over the whole string. -/
def matchIndices (delims : List Char) (s : List Char) : List (Nat × Char) :=
  matchIndicesAux delims s 0

/-- The rendering loop of `impl fmt::Display for Escaped<K>`: for each match
`(idx, delim)` it writes the pending slice `self.0[last..idx]`, then a
backslash and the matched delimiter, and continues from
`last = idx + delim.len()` (each delimiter is exactly one character); after
the loop it writes the trailing slice `self.0[last..]`. -/
def fmtLoop (s : List Char) : List (Nat × Char) → Nat → List Char
  | [], last => s.drop last
  | (idx, d) :: ms, last =>
    (s.drop last).take (idx - last) ++ '\\' :: d :: fmtLoop s ms (idx + 1)

/-- Escaping a character sequence for a delimiter set, exactly as the
`Display` implementation computes it. -/
def escapedFmt (delims : List Char) (s : List Char) : List Char :=
  fmtLoop s (matchIndices delims s) 0

/-- Rendering an `Escaped<K>` string (`impl fmt::Display for Escaped<K>`). -/
def Escaped.render {K : EscKind} (e : Escaped K) : String :=
  ⟨escapedFmt (DELIMITERS K) e.raw.data⟩

/-- Escaping as the specification words it: a single backslash is inserted
immediately before every occurrence of a delimiter character, and every
other character (including any existing backslash) passes through
unchanged. -/
def escapeSpecWords (delims : List Char) : List Char → List Char
  | [] => []
  | c :: rest => (if c ∈ delims then ['\\', c] else [c]) ++ escapeSpecWords delims rest

/-- Type aliases of the source: tag keys, tag values and field keys all share
the `TagKey` escaping category. -/
abbrev EscapedMeasurement := Escaped .Measurement

/-- Alias `EscapedTagKey = Escaped<TagKey>`. -/
abbrev EscapedTagKey := Escaped .TagKey

/-- Alias `EscapedTagValue = Escaped<TagKey>`. -/
abbrev EscapedTagValue := Escaped .TagKey

/-- Alias `EscapedFieldKey = Escaped<TagKey>`. -/
abbrev EscapedFieldKey := Escaped .TagKey

/-- Alias `EscapedFieldValueString = Escaped<FieldValueString>`. -/
abbrev EscapedFieldValueString := Escaped .FieldValueString

/-- Default textual form of an `f64`, as produced by the standard `Display`
implementation for `f64` (external to the crate). -/
abbrev FloatRepr := String

/-- `FieldValue`: the closed set of field value kinds. The `F64` payload is
modelled by the value's default decimal textual form (a `FloatRepr`),
because the source renders this variant by delegating unchanged to the
standard `Display` for `f64`, which lives outside the crate. -/
inductive FieldValue where
  | Bool (v : Bool)
  | F64 (v : FloatRepr)
  | I64 (v : Int)
  | String (v : EscapedFieldValueString)
deriving DecidableEq

/-- Alias for `String`, usable inside the `FieldValue` namespace where the
bare name `String` refers to the `FieldValue::String` constructor. -/
abbrev Str := String

/-- Rendering of `FieldValue` (`impl fmt::Display for FieldValue`). -/
def FieldValue.render (fv : FieldValue) : Str :=
  match fv with
  | .Bool v => if v then "t" else "f"
  | .F64 v => v
  | .I64 v => toString v ++ "i"
  | .String v => "\"" ++ v.render ++ "\""

/-- `DataPointBuilder`: the in-progress measurement, tag map, field map and
optional timestamp (an `i64` nanosecond count, modelled as `Int`; the code
never computes with it). -/
structure DataPointBuilder where
  measurement : EscapedMeasurement
  tags : List (EscapedTagKey × EscapedTagValue)
  fields : List (EscapedFieldKey × FieldValue)
  timestamp : Option Int
deriving DecidableEq

/-- `DataPoint`: the immutable result of a successful `build`. -/
structure DataPoint where
  measurement : EscapedMeasurement
  tags : List (EscapedTagKey × EscapedTagValue)
  fields : List (EscapedFieldKey × FieldValue)
  timestamp : Option Int
deriving DecidableEq

/-- `DataPointError`: the single variant `AtLeastOneFieldRequired` carries the
builder's full state. -/
inductive DataPointError where
  | AtLeastOneFieldRequired (data_point_builder : DataPointBuilder)
deriving DecidableEq

/-- `DataPoint::builder` / `DataPointBuilder::new`: empty maps, no timestamp. -/
def DataPoint.builder (measurement : String) : DataPointBuilder :=
  ⟨Escaped.fromString measurement, [], [], none⟩

/-- `DataPointBuilder::tag`: sets a tag, replacing any existing tag of the
same name. -/
def DataPointBuilder.tag (b : DataPointBuilder) (name value : String) :
    DataPointBuilder :=
  { b with tags := mapInsert (Escaped.fromString name) (Escaped.fromString value) b.tags }

/-- `DataPointBuilder::field`: sets a field, replacing any existing field of
the same name. -/
def DataPointBuilder.field (b : DataPointBuilder) (name : String)
    (value : FieldValue) : DataPointBuilder :=
  { b with fields := mapInsert (Escaped.fromString name) value b.fields }

/-- `DataPointBuilder::timestamp` (named `setTimestamp` here because the Lean
structure's `timestamp` field projection takes the source method's name):
sets the timestamp, replacing any existing timestamp. -/
def DataPointBuilder.setTimestamp (b : DataPointBuilder) (value : Int) :
    DataPointBuilder :=
  { b with timestamp := some value }

/-- `DataPointBuilder::build`: fails with `AtLeastOneFieldRequired` when the
field map is empty, otherwise moves the builder's state into a `DataPoint`. -/
def DataPointBuilder.build (b : DataPointBuilder) :
    Except DataPointError DataPoint :=
  if b.fields.isEmpty then Except.error (DataPointError.AtLeastOneFieldRequired b)
  else Except.ok ⟨b.measurement, b.tags, b.fields, b.timestamp⟩

/-- The tag loop of `impl fmt::Display for LineProtocol`: `,{k}={v}` for each
tag, in map order. -/
def tagsRender : List (EscapedTagKey × EscapedTagValue) → String
  | [] => ""
  | (k, v) :: rest => "," ++ k.render ++ "=" ++ v.render ++ tagsRender rest

/-- The field loop of `impl fmt::Display for LineProtocol`: the separator is a
space when the enumeration index is `0` and `,` afterwards, then `{k}={v}`. -/
def fieldsRender : List (EscapedFieldKey × FieldValue) → Nat → String
  | [], _ => ""
  | (k, v) :: rest, i =>
    (if i == 0 then " " else ",") ++ k.render ++ "=" ++ v.render ++
      fieldsRender rest (i + 1)

/-- `impl fmt::Display for LineProtocol` (reached through
`DataPoint::line_protocol`): measurement, tags, fields, then the optional
timestamp; nothing is appended after the last part. -/
def DataPoint.lineProtocol (p : DataPoint) : String :=
  p.measurement.render ++ tagsRender p.tags ++ fieldsRender p.fields 0 ++
    (match p.timestamp with
     | some ts => " " ++ toString ts
     | none => "")

/-! Lemmas about the escaping engine. -/

/-- Every match index produced from starting position `i` is at least `i`. -/
theorem matchIndicesAux_le (delims : List Char) (t : List Char) :
    ∀ (i : Nat), ∀ m ∈ matchIndicesAux delims t i, i ≤ m.1 := by
  induction t with
  | nil => intro i m h; simp [matchIndicesAux] at h
  | cons c rest ih =>
    intro i m h
    by_cases hc : c ∈ delims
    · simp only [matchIndicesAux, if_pos hc, List.mem_cons] at h
      rcases h with rfl | h
      · exact Nat.le_refl i
      · exact Nat.le_of_succ_le (ih (i + 1) m h)
    · simp only [matchIndicesAux, if_neg hc] at h
      exact Nat.le_of_succ_le (ih (i + 1) m h)

/-- Dropping one more element after position `i`. -/
theorem drop_succ_of_drop_cons {s r : List Char} {c : Char} {i : Nat}
    (hdrop : s.drop i = c :: r) : s.drop (i + 1) = r := by
  rw [← List.tail_drop, hdrop]
  rfl

/-- When every pending match lies at position `i + 1` or later, the character
at position `i` is copied verbatim by the rendering loop. -/
theorem fmtLoop_shift (s : List Char) (ms : List (Nat × Char)) (i : Nat) (c : Char)
    (r : List Char) (hdrop : s.drop i = c :: r) (hbound : ∀ m ∈ ms, i + 1 ≤ m.1) :
    fmtLoop s ms i = c :: fmtLoop s ms (i + 1) := by
  cases ms with
  | nil =>
    show s.drop i = c :: s.drop (i + 1)
    rw [hdrop, drop_succ_of_drop_cons hdrop]
  | cons m ms' =>
    obtain ⟨idx, d⟩ := m
    have hidx : i + 1 ≤ idx := hbound (idx, d) (List.mem_cons_self _ _)
    show (s.drop i).take (idx - i) ++ '\\' :: d :: fmtLoop s ms' (idx + 1)
        = c :: ((s.drop (i + 1)).take (idx - (i + 1)) ++ '\\' :: d :: fmtLoop s ms' (idx + 1))
    rw [hdrop, drop_succ_of_drop_cons hdrop]
    have hsub : idx - i = (idx - (i + 1)) + 1 := by omega
    rw [hsub, List.take_succ_cons, List.cons_append]

/-- The rendering loop applied to the matches of the suffix starting at `i`
produces exactly the specification's escaping of that suffix. -/
theorem fmtLoop_matchIndicesAux (delims : List Char) :
    ∀ (t s : List Char) (i : Nat), s.drop i = t →
      fmtLoop s (matchIndicesAux delims t i) i = escapeSpecWords delims t := by
  intro t
  induction t with
  | nil =>
    intro s i hdrop
    simp [matchIndicesAux, fmtLoop, hdrop, escapeSpecWords]
  | cons c rest ih =>
    intro s i hdrop
    have hdrop1 : s.drop (i + 1) = rest := drop_succ_of_drop_cons hdrop
    by_cases hc : c ∈ delims
    · simp only [matchIndicesAux, if_pos hc, fmtLoop]
      rw [hdrop, ih s (i + 1) hdrop1]
      simp [escapeSpecWords, if_pos hc]
    · simp only [matchIndicesAux, if_neg hc]
      rw [fmtLoop_shift s _ i c rest hdrop (matchIndicesAux_le delims rest (i + 1)),
        ih s (i + 1) hdrop1]
      simp [escapeSpecWords, if_neg hc]

/-- The `Display` loop of `Escaped<K>` computes exactly the escaping the
specification describes. -/
theorem escapedFmt_eq_spec (delims : List Char) (s : List Char) :
    escapedFmt delims s = escapeSpecWords delims s :=
  fmtLoop_matchIndicesAux delims s s 0 (by simp)

/-- On a string without delimiter characters the specification's escaping is
the identity. -/
theorem escapeSpecWords_of_no_delims (delims : List Char) :
    ∀ (t : List Char), (∀ c ∈ t, c ∉ delims) → escapeSpecWords delims t = t := by
  intro t
  induction t with
  | nil => intro _; rfl
  | cons c rest ih =>
    intro h
    have hc : c ∉ delims := h c (List.mem_cons_self _ _)
    simp only [escapeSpecWords, if_neg hc, List.singleton_append, List.cons.injEq, true_and]
    exact ih fun x hx => h x (List.mem_cons_of_mem _ hx)

/-! Lemmas about the sorted-association-list model of `BTreeMap`. -/

/-- Strings with equal character data are equal. -/
theorem string_eq_of_data_eq {a b : String} (h : a.data = b.data) : a = b := by
  cases a
  cases b
  exact congrArg String.mk h

/-- Two `Escaped` values are equal exactly when their raw strings are. -/
theorem Escaped.eq_iff_raw {K : EscKind} {a b : Escaped K} : a = b ↔ a.raw = b.raw := by
  cases a
  cases b
  simp

/-- Trichotomy for the raw-content comparison of keys. -/
theorem ltRaw_trichotomy {K : EscKind} (a b : Escaped K) :
    a.ltRaw b ∨ a.raw = b.raw ∨ b.ltRaw a := by
  rcases lt_trichotomy a.raw.data b.raw.data with h | h | h
  · exact Or.inl h
  · exact Or.inr (Or.inl (string_eq_of_data_eq h))
  · exact Or.inr (Or.inr h)

/-- The raw-content comparison is asymmetric. -/
theorem ltRaw_asymm {K : EscKind} {a b : Escaped K} (h : a.ltRaw b) : ¬ b.ltRaw a :=
  lt_asymm (show a.raw.data < b.raw.data from h)

/-- The raw-content comparison is transitive. -/
theorem ltRaw_trans {K : EscKind} {a b c : Escaped K} (h₁ : a.ltRaw b) (h₂ : b.ltRaw c) :
    a.ltRaw c :=
  lt_trans (show a.raw.data < b.raw.data from h₁) (show b.raw.data < c.raw.data from h₂)

/-- Strictly smaller keys have different raw strings. -/
theorem ltRaw_ne {K : EscKind} {a b : Escaped K} (h : a.ltRaw b) : a.raw ≠ b.raw := by
  intro he
  have h' : a.raw.data < b.raw.data := h
  rw [he] at h'
  exact lt_irrefl _ h'

/-- Keys with equal raw content do not compare strictly. -/
theorem not_ltRaw_of_raw_eq {K : EscKind} {a b : Escaped K} (h : a.raw = b.raw) :
    ¬ a.ltRaw b := by
  intro hl
  have h' : a.raw.data < b.raw.data := hl
  rw [h] at h'
  exact lt_irrefl _ h'

/-- The invariant of the `BTreeMap` model: entries are strictly sorted by the
raw content of their keys. -/
abbrev mapSorted {K : EscKind} {β : Type} (m : List (Escaped K × β)) : Prop :=
  List.Pairwise (fun a b => a.1.ltRaw b.1) m

/-- Every key of `mapInsert k v m` is either (raw-)equal to `k` or a key of `m`. -/
theorem mapInsert_key_mem {K : EscKind} {β : Type} (k : Escaped K) (v : β) :
    ∀ (m : List (Escaped K × β)), ∀ p ∈ mapInsert k v m,
      p.1.raw = k.raw ∨ p.1 ∈ m.map Prod.fst := by
  intro m
  induction m with
  | nil =>
    intro p hp
    simp only [mapInsert, List.mem_singleton] at hp
    subst hp
    exact Or.inl rfl
  | cons hd tl ih =>
    obtain ⟨q, w⟩ := hd
    intro p hp
    simp only [mapInsert] at hp
    by_cases h1 : k.ltRaw q
    · rw [if_pos h1] at hp
      rcases List.mem_cons.mp hp with heq | hp'
      · subst heq
        exact Or.inl rfl
      · rcases List.mem_cons.mp hp' with heq | hp''
        · subst heq
          exact Or.inr (by simp)
        · exact Or.inr (by simp [List.mem_map_of_mem Prod.fst hp''])
    · rw [if_neg h1] at hp
      by_cases h2 : k.raw = q.raw
      · rw [if_pos h2] at hp
        rcases List.mem_cons.mp hp with heq | hp'
        · subst heq
          exact Or.inl h2.symm
        · exact Or.inr (by simp [List.mem_map_of_mem Prod.fst hp'])
      · rw [if_neg h2] at hp
        rcases List.mem_cons.mp hp with heq | hp'
        · subst heq
          exact Or.inr (by simp)
        · rcases ih p hp' with h | h
          · exact Or.inl h
          · exact Or.inr (by simp [h])

/-- `mapInsert` preserves the sortedness invariant. -/
theorem mapSorted_mapInsert {K : EscKind} {β : Type} (k : Escaped K) (v : β) :
    ∀ (m : List (Escaped K × β)), mapSorted m → mapSorted (mapInsert k v m) := by
  intro m
  induction m with
  | nil => intro _; simp [mapInsert]
  | cons hd tl ih =>
    obtain ⟨q, w⟩ := hd
    intro hs
    obtain ⟨hq, htl⟩ := List.pairwise_cons.mp hs
    simp only [mapInsert]
    by_cases h1 : k.ltRaw q
    · rw [if_pos h1]
      refine List.pairwise_cons.mpr ⟨?_, List.pairwise_cons.mpr ⟨hq, htl⟩⟩
      intro p hp
      rcases List.mem_cons.mp hp with heq | hp'
      · subst heq
        exact h1
      · exact ltRaw_trans h1 (hq p hp')
    · rw [if_neg h1]
      by_cases h2 : k.raw = q.raw
      · rw [if_pos h2]
        exact List.pairwise_cons.mpr ⟨hq, htl⟩
      · rw [if_neg h2]
        refine List.pairwise_cons.mpr ⟨?_, ih htl⟩
        intro p hp
        have hqk : q.ltRaw k := by
          rcases ltRaw_trichotomy k q with h' | h' | h'
          · exact absurd h' h1
          · exact absurd h' h2
          · exact h'
        rcases mapInsert_key_mem k v tl p hp with h | h
        · show q.raw.data < p.1.raw.data
          rw [h]
          exact hqk
        · rcases List.mem_map.mp h with ⟨p', hp', hfst⟩
          have hlt : q.ltRaw p'.1 := hq p' hp'
          rw [hfst] at hlt
          exact hlt

/-- Lookup after `mapInsert`: the inserted key now maps to the inserted
value; every other key is unaffected. -/
theorem mapLookup_mapInsert {K : EscKind} {β : Type} (k : Escaped K) (v : β)
    (query : String) :
    ∀ (m : List (Escaped K × β)),
      mapLookup query (mapInsert k v m)
        = if query = k.raw then some v else mapLookup query m := by
  intro m
  induction m with
  | nil => simp [mapInsert, mapLookup]
  | cons hd tl ih =>
    obtain ⟨q, w⟩ := hd
    simp only [mapInsert]
    by_cases h1 : k.ltRaw q
    · rw [if_pos h1]
      simp [mapLookup]
    · rw [if_neg h1]
      by_cases h2 : k.raw = q.raw
      · rw [if_pos h2]
        by_cases hq : query = q.raw
        · simp [mapLookup, hq, h2]
        · simp [mapLookup, hq, h2]
      · rw [if_neg h2]
        by_cases hq : query = q.raw
        · have hqk : q.raw ≠ k.raw := fun hh => h2 hh.symm
          simp [mapLookup, hq, hqk]
        · simp [mapLookup, ih, hq]

/-- A key that matches no entry looks up to `none`. -/
theorem mapLookup_eq_none {K : EscKind} {β : Type} (query : String) :
    ∀ (m : List (Escaped K × β)), (∀ p ∈ m, query ≠ p.1.raw) →
      mapLookup query m = none := by
  intro m
  induction m with
  | nil => intro _; rfl
  | cons hd tl ih =>
    obtain ⟨q, w⟩ := hd
    intro h
    simp only [mapLookup]
    rw [if_neg (h (q, w) (List.mem_cons_self _ _))]
    exact ih fun p hp => h p (List.mem_cons_of_mem _ hp)

/-- Sorted maps are determined by their lookup function. -/
theorem mapSorted_ext {K : EscKind} {β : Type} :
    ∀ (m₁ m₂ : List (Escaped K × β)), mapSorted m₁ → mapSorted m₂ →
      (∀ q, mapLookup q m₁ = mapLookup q m₂) → m₁ = m₂ := by
  intro m₁
  induction m₁ with
  | nil =>
    intro m₂ _ _ hl
    cases m₂ with
    | nil => rfl
    | cons hd tl =>
      obtain ⟨q, w⟩ := hd
      have := hl q.raw
      simp [mapLookup] at this
  | cons hd₁ tl₁ ih =>
    obtain ⟨k₁, v₁⟩ := hd₁
    intro m₂ hs₁ hs₂ hl
    cases m₂ with
    | nil =>
      have := hl k₁.raw
      simp [mapLookup] at this
    | cons hd₂ tl₂ =>
      obtain ⟨k₂, v₂⟩ := hd₂
      obtain ⟨hk₁, htl₁⟩ := List.pairwise_cons.mp hs₁
      obtain ⟨hk₂, htl₂⟩ := List.pairwise_cons.mp hs₂
      have hraw : k₁.raw = k₂.raw := by
        rcases ltRaw_trichotomy k₁ k₂ with hlt | heq | hgt
        · exfalso
          have h1 : mapLookup k₁.raw ((k₁, v₁) :: tl₁) = some v₁ := by
            simp [mapLookup]
          have h2 : mapLookup k₁.raw ((k₂, v₂) :: tl₂) = none := by
            refine mapLookup_eq_none _ _ fun p hp => ?_
            rcases List.mem_cons.mp hp with heq | hp'
            · subst heq
              exact ltRaw_ne hlt
            · exact ltRaw_ne (ltRaw_trans hlt (hk₂ p hp'))
          rw [hl k₁.raw, h2] at h1
          exact Option.noConfusion h1
        · exact heq
        · exfalso
          have h1 : mapLookup k₂.raw ((k₂, v₂) :: tl₂) = some v₂ := by
            simp [mapLookup]
          have h2 : mapLookup k₂.raw ((k₁, v₁) :: tl₁) = none := by
            refine mapLookup_eq_none _ _ fun p hp => ?_
            rcases List.mem_cons.mp hp with heq | hp'
            · subst heq
              exact ltRaw_ne hgt
            · exact ltRaw_ne (ltRaw_trans hgt (hk₁ p hp'))
          rw [← hl k₂.raw, h2] at h1
          exact Option.noConfusion h1
      have hkeq : k₁ = k₂ := Escaped.eq_iff_raw.mpr hraw
      subst hkeq
      have hveq : v₁ = v₂ := by
        have := hl k₁.raw
        simp [mapLookup] at this
        exact this
      subst hveq
      have htleq : tl₁ = tl₂ := by
        refine ih tl₂ htl₁ htl₂ fun q => ?_
        by_cases hq : q = k₁.raw
        · subst hq
          rw [mapLookup_eq_none _ _ fun p hp => ltRaw_ne (hk₁ p hp),
            mapLookup_eq_none _ _ fun p hp => ltRaw_ne (hk₂ p hp)]
        · have := hl q
          simp only [mapLookup, if_neg hq] at this
          exact this
      rw [htleq]

/-- Insertions under distinct keys commute on sorted maps. -/
theorem mapInsert_comm {K : EscKind} {β : Type} {k₁ k₂ : Escaped K} (v₁ v₂ : β)
    (hne : k₁.raw ≠ k₂.raw) (m : List (Escaped K × β)) (hs : mapSorted m) :
    mapInsert k₁ v₁ (mapInsert k₂ v₂ m) = mapInsert k₂ v₂ (mapInsert k₁ v₁ m) := by
  refine mapSorted_ext _ _
    (mapSorted_mapInsert _ _ _ (mapSorted_mapInsert _ _ _ hs))
    (mapSorted_mapInsert _ _ _ (mapSorted_mapInsert _ _ _ hs)) fun q => ?_
  rw [mapLookup_mapInsert, mapLookup_mapInsert, mapLookup_mapInsert, mapLookup_mapInsert]
  by_cases h1 : q = k₁.raw
  · subst h1
    simp [hne]
  · by_cases h2 : q = k₂.raw
    · subst h2
      simp [h1]
    · simp [h1, h2]

/-- Folding a list of raw insertions into a map, the way the builder's setters
do for tags and fields. -/
def mapFromPairs {K : EscKind} {β : Type} (m₀ : List (Escaped K × β))
    (l : List (String × β)) : List (Escaped K × β) :=
  l.foldl (fun m kv => mapInsert (Escaped.fromString kv.1) kv.2 m) m₀

/-- `mapFromPairs` preserves the sortedness invariant. -/
theorem mapSorted_mapFromPairs {K : EscKind} {β : Type} (l : List (String × β)) :
    ∀ (m₀ : List (Escaped K × β)), mapSorted m₀ → mapSorted (mapFromPairs m₀ l) := by
  induction l with
  | nil => intro m₀ h; exact h
  | cons kv t ih =>
    intro m₀ h
    exact ih _ (mapSorted_mapInsert _ _ _ h)

/-- Inserting a permutation of a duplicate-free list of keyed entries produces
the same map. -/
theorem mapFromPairs_perm {K : EscKind} {β : Type} {l₁ l₂ : List (String × β)}
    (hp : l₁.Perm l₂) :
    (l₁.map Prod.fst).Nodup → ∀ (m₀ : List (Escaped K × β)), mapSorted m₀ →
      mapFromPairs m₀ l₁ = mapFromPairs m₀ l₂ := by
  induction hp with
  | nil => intro _ m₀ _; rfl
  | cons x h ih =>
    intro hnd m₀ hs
    rw [List.map_cons] at hnd
    exact ih hnd.of_cons _ (mapSorted_mapInsert _ _ _ hs)
  | swap x y l =>
    intro hnd m₀ hs
    have hxy : y.1 ≠ x.1 := by
      rw [List.map_cons, List.map_cons] at hnd
      have hnmem := (List.nodup_cons.mp hnd).1
      intro he
      exact hnmem (he ▸ List.mem_cons_self _ _)
    simp only [mapFromPairs, List.foldl_cons]
    rw [mapInsert_comm x.2 y.2 (show x.1 ≠ y.1 from fun he => hxy he.symm) m₀ hs]
  | trans h₁ h₂ ih₁ ih₂ =>
    intro hnd m₀ hs
    have hnd₂ := ((h₁.map Prod.fst).nodup_iff).mp hnd
    rw [ih₁ hnd m₀ hs, ih₂ hnd₂ m₀ hs]

/-- Inserting a whole list of tags and then a whole list of fields through the
builder's setters. -/
def DataPointBuilder.insertAll (b : DataPointBuilder)
    (tl : List (String × String)) (fl : List (String × FieldValue)) :
    DataPointBuilder :=
  fl.foldl (fun c kv => c.field kv.1 kv.2) (tl.foldl (fun c kv => c.tag kv.1 kv.2) b)

/-- Folding tag insertions only touches the tag map, through `mapFromPairs`. -/
theorem foldl_tag_components (tl : List (String × String)) :
    ∀ (b : DataPointBuilder),
      tl.foldl (fun c kv => c.tag kv.1 kv.2) b
        = { b with tags :=
              mapFromPairs b.tags (tl.map fun kv => (kv.1, Escaped.fromString kv.2)) } := by
  induction tl with
  | nil => intro b; rfl
  | cons kv t ih =>
    intro b
    rw [List.foldl_cons, ih (b.tag kv.1 kv.2)]
    rfl

/-- Folding field insertions only touches the field map, through
`mapFromPairs`. -/
theorem foldl_field_components (fl : List (String × FieldValue)) :
    ∀ (b : DataPointBuilder),
      fl.foldl (fun c kv => c.field kv.1 kv.2) b
        = { b with fields := mapFromPairs b.fields fl } := by
  induction fl with
  | nil => intro b; rfl
  | cons kv t ih =>
    intro b
    rw [List.foldl_cons, ih (b.field kv.1 kv.2)]
    rfl

/-! Lemmas about the serializer. -/

/-- `String.join` distributes over cons. -/
theorem string_join_cons (s : String) (l : List String) :
    String.join (s :: l) = s ++ String.join l := by
  apply string_eq_of_data_eq
  simp [String.join_eq, String.data_append]

/-- The tag loop writes exactly the concatenation, over the tag map in order,
of comma, escaped key, equals sign, escaped value. -/
theorem tagsRender_eq_join (l : List (EscapedTagKey × EscapedTagValue)) :
    tagsRender l
      = String.join (l.map fun kv => "," ++ kv.1.render ++ "=" ++ kv.2.render) := by
  induction l with
  | nil => rfl
  | cons kv t ih =>
    obtain ⟨k, v⟩ := kv
    rw [List.map_cons, string_join_cons, ← ih]
    rfl

/-- Away from index zero the field loop separates every entry with a comma. -/
theorem fieldsRender_succ (l : List (EscapedFieldKey × FieldValue)) :
    ∀ (n : Nat), fieldsRender l (n + 1)
      = String.join (l.map fun kv => "," ++ kv.1.render ++ "=" ++ kv.2.render) := by
  induction l with
  | nil => intro n; rfl
  | cons kv t ih =>
    intro n
    obtain ⟨k, v⟩ := kv
    rw [List.map_cons, string_join_cons, ← ih (n + 1)]
    simp [fieldsRender]

/-- The field loop at index zero on a nonempty map: one leading space, the
first entry, then the remaining entries each preceded by a comma. -/
theorem fieldsRender_zero (x : EscapedFieldKey × FieldValue)
    (t : List (EscapedFieldKey × FieldValue)) :
    fieldsRender (x :: t) 0
      = " " ++ x.1.render ++ "=" ++ x.2.render
          ++ String.join (t.map fun kv => "," ++ kv.1.render ++ "=" ++ kv.2.render) := by
  obtain ⟨k, v⟩ := x
  rw [← fieldsRender_succ t 0]
  simp [fieldsRender]

/-- The serializer's layout as the specification words it: the escaped
measurement; per tag a comma, escaped key, equals sign and escaped value, in
map order; a single space and the fields in map order, the first preceded
only by that space and each later one preceded only by a comma; then, when a
timestamp is present, one space and its decimal digits; nothing after that. -/
def lineProtocolSpec (p : DataPoint) : String :=
  p.measurement.render
    ++ String.join (p.tags.map fun kv => "," ++ kv.1.render ++ "=" ++ kv.2.render)
    ++ (match p.fields with
        | [] => ""
        | x :: t => " " ++ x.1.render ++ "=" ++ x.2.render
            ++ String.join (t.map fun kv => "," ++ kv.1.render ++ "=" ++ kv.2.render))
    ++ (match p.timestamp with
        | some ts => " " ++ toString ts
        | none => "")

/-- The serializer implements the specification's layout. -/
theorem lineProtocol_eq_spec (p : DataPoint) :
    p.lineProtocol = lineProtocolSpec p := by
  obtain ⟨m, tg, fl, ts⟩ := p
  simp only [DataPoint.lineProtocol, lineProtocolSpec]
  rw [tagsRender_eq_join]
  cases fl with
  | nil => rfl
  | cons x t => rw [fieldsRender_zero]

/-! Byte-level model of the slice offsets used while rendering. -/

/-- Number of bytes in the UTF-8 encoding of a character. -/
def utf8Len (c : Char) : Nat :=
  if c.toNat < 0x80 then 1
  else if c.toNat < 0x800 then 2
  else if c.toNat < 0x10000 then 3
  else 4

/-- Byte offset of the `i`-th character of a string inside its UTF-8
encoding: the model of the byte indices that `str::match_indices` reports. -/
def byteIdx (s : List Char) (i : Nat) : Nat :=
  ((s.take i).map utf8Len).sum

/-- A byte offset that lies on a character boundary of the UTF-8 encoding:
slicing a Rust `str` is panic-free exactly at such offsets. -/
abbrev isCharBoundary (s : List Char) (b : Nat) : Prop :=
  ∃ i, i ≤ s.length ∧ byteIdx s i = b

/-- Advancing past character `i` adds that character's encoded length. -/
theorem byteIdx_succ (s : List Char) (i : Nat) (h : i < s.length) :
    byteIdx s (i + 1) = byteIdx s i + utf8Len (s.get ⟨i, h⟩) := by
  unfold byteIdx
  rw [List.take_succ, List.map_append, List.sum_append, List.getElem?_eq_getElem h]
  simp

/-- Re-inserting the same key and value leaves a map unchanged. -/
theorem mapInsert_idem {K : EscKind} {β : Type} (k : Escaped K) (v : β) :
    ∀ (m : List (Escaped K × β)), mapInsert k v (mapInsert k v m) = mapInsert k v m := by
  intro m
  induction m with
  | nil => simp [mapInsert, not_ltRaw_of_raw_eq rfl]
  | cons hd tl ih =>
    obtain ⟨q, w⟩ := hd
    simp only [mapInsert]
    by_cases h1 : k.ltRaw q
    · rw [if_pos h1]
      simp [mapInsert, not_ltRaw_of_raw_eq rfl, h1]
    · rw [if_neg h1]
      by_cases h2 : k.raw = q.raw
      · rw [if_pos h2]
        simp [mapInsert, h1, h2]
      · rw [if_neg h2]
        simp [mapInsert, h1, h2, ih]

/-! The claims. -/

/-- C1: for every raw string and each category, the escaped rendering equals
the raw string with a single backslash inserted immediately before every
occurrence of that category's delimiter characters, every other character
(including any existing backslash) passing through unchanged; and the
delimiter sets are exactly comma and space for `Measurement`, comma, equals
sign and space for `TagKey` (the spec's `TagKeyOrValue`), and the double
quote alone for `FieldValueString` (the spec's `FieldValueStringLiteral`). -/
theorem escaping_inserts_backslashes_C1 (K : EscKind) (s : String) :
    (Escaped.fromString s : Escaped K).render
        = ⟨escapeSpecWords (DELIMITERS K) s.data⟩
      ∧ DELIMITERS .Measurement = [',', ' ']
      ∧ DELIMITERS .TagKey = [',', '=', ' ']
      ∧ DELIMITERS .FieldValueString = ['"'] :=
  ⟨congrArg String.mk (escapedFmt_eq_spec (DELIMITERS K) s.data), rfl, rfl, rfl⟩

/-- C2: `build` fails exactly when the field map is empty; the failure is
`AtLeastOneFieldRequired` carrying the builder's full state unchanged; that
is the only failure mode; and a builder with at least one field always
succeeds, moving its state unchanged into the `DataPoint`. -/
theorem build_fails_iff_no_fields_C2 (b : DataPointBuilder) :
    (b.build = Except.error (DataPointError.AtLeastOneFieldRequired b) ↔ b.fields = [])
      ∧ (∀ e, b.build = Except.error e →
          e = DataPointError.AtLeastOneFieldRequired b ∧ b.fields = [])
      ∧ (b.fields ≠ [] →
          b.build = Except.ok ⟨b.measurement, b.tags, b.fields, b.timestamp⟩) := by
  obtain ⟨m, tg, fl, ts⟩ := b
  cases fl with
  | nil =>
    refine ⟨⟨fun _ => rfl, fun _ => rfl⟩, ?_, fun hne => absurd rfl hne⟩
    intro e he
    have he' : Except.error (α := DataPoint)
        (DataPointError.AtLeastOneFieldRequired ⟨m, tg, [], ts⟩) = Except.error e := he
    exact ⟨(Except.error.inj he').symm, rfl⟩
  | cons f fs =>
    refine ⟨⟨?_, ?_⟩, ?_, fun _ => rfl⟩
    · intro he
      exact Except.noConfusion
        (show Except.ok (⟨m, tg, f :: fs, ts⟩ : DataPoint) = Except.error
          (DataPointError.AtLeastOneFieldRequired ⟨m, tg, f :: fs, ts⟩) from he)
    · intro he
      exact List.noConfusion he
    · intro e he
      exact Except.noConfusion
        (show Except.ok (⟨m, tg, f :: fs, ts⟩ : DataPoint) = Except.error e from he)

/-- C4: field values render exactly per variant: `Bool true` to `t`,
`Bool false` to `f`, `I64 v` to the decimal digits of `v` followed by `i`
(`42` to `42i`), `F64 v` to the value's default decimal textual form
(`42.0`, whose default form is `42`, to `42`), and `String s` to a double
quote, the `FieldValueString`-escaped rendering of `s`, and a closing double
quote (`hello` to `"hello"`). -/
theorem field_value_rendering_C4 :
    FieldValue.render (.Bool true) = "t"
      ∧ FieldValue.render (.Bool false) = "f"
      ∧ (∀ v : Int, FieldValue.render (.I64 v) = toString v ++ "i")
      ∧ FieldValue.render (.I64 42) = "42i"
      ∧ (∀ r : FloatRepr, FieldValue.render (.F64 r) = r)
      ∧ FieldValue.render (.F64 "42") = "42"
      ∧ (∀ s : String, FieldValue.render (.String (Escaped.fromString s))
          = "\"" ++ (Escaped.fromString s : EscapedFieldValueString).render ++ "\"")
      ∧ FieldValue.render (.String (Escaped.fromString "hello")) = "\"hello\"" :=
  ⟨rfl, rfl, fun _ => rfl, by decide, fun _ => rfl, rfl, fun _ => rfl, by decide⟩

/-- C6: for every category, a raw string containing none of that category's
delimiter characters renders unchanged; in particular the empty string
renders to the empty string. -/
theorem no_delimiters_identity_C6 (K : EscKind) (s : String)
    (h : ∀ c ∈ s.data, c ∉ DELIMITERS K) :
    (Escaped.fromString s : Escaped K).render = s
      ∧ (Escaped.fromString "" : Escaped K).render = "" := by
  constructor
  · show (⟨escapedFmt (DELIMITERS K) s.data⟩ : String) = s
    rw [escapedFmt_eq_spec, escapeSpecWords_of_no_delims _ _ h]
  · rfl

/-- C7: two `Escaped` strings of one category are equal exactly when their
raw strings are equal, their ordering is exactly the ordering of their raw
strings, and construction from a plain string is total and stores the raw
string unchanged. -/
theorem escaped_compares_by_raw_C7 {K : EscKind} (a b : Escaped K) (s : String) :
    (a = b ↔ a.raw = b.raw)
      ∧ (a.ltRaw b ↔ a.raw.data < b.raw.data)
      ∧ (Escaped.fromString s : Escaped K).raw = s :=
  ⟨Escaped.eq_iff_raw, Iff.rfl, rfl⟩

/-- C8: every setter replaces the entry under its key (last write wins),
leaves every other key untouched, never fails, and repeating the same call
with the same key and value leaves the builder unchanged after the first. -/
theorem setters_last_write_wins_C8 (b : DataPointBuilder) (k v : String)
    (fk : String) (fv : FieldValue) (ts : Int) :
    mapLookup k (b.tag k v).tags = some (Escaped.fromString v)
      ∧ (∀ q, q ≠ k → mapLookup q (b.tag k v).tags = mapLookup q b.tags)
      ∧ (b.tag k v).tag k v = b.tag k v
      ∧ mapLookup fk (b.field fk fv).fields = some fv
      ∧ (∀ q, q ≠ fk → mapLookup q (b.field fk fv).fields = mapLookup q b.fields)
      ∧ (b.field fk fv).field fk fv = b.field fk fv
      ∧ (b.setTimestamp ts).timestamp = some ts
      ∧ (b.setTimestamp ts).setTimestamp ts = b.setTimestamp ts := by
  refine ⟨?_, ?_, ?_, ?_, ?_, ?_, rfl, rfl⟩
  · show mapLookup k (mapInsert (Escaped.fromString k) (Escaped.fromString v) b.tags)
        = some (Escaped.fromString v)
    rw [mapLookup_mapInsert]
    simp [Escaped.fromString]
  · intro q hq
    show mapLookup q (mapInsert (Escaped.fromString k) (Escaped.fromString v) b.tags)
        = mapLookup q b.tags
    rw [mapLookup_mapInsert]
    simp [Escaped.fromString, hq]
  · simp [DataPointBuilder.tag, mapInsert_idem]
  · show mapLookup fk (mapInsert (Escaped.fromString fk) fv b.fields) = some fv
    rw [mapLookup_mapInsert]
    simp [Escaped.fromString]
  · intro q hq
    show mapLookup q (mapInsert (Escaped.fromString fk) fv b.fields) = mapLookup q b.fields
    rw [mapLookup_mapInsert]
    simp [Escaped.fromString, hq]
  · simp [DataPointBuilder.field, mapInsert_idem]

/-- C3: the serializer never fails and produces exactly the specification's
layout: escaped measurement; for each tag, in map (sorted raw-key) order, a
comma, escaped key, equals sign and escaped value; one space and the fields
in map order, the first preceded only by that space and later ones each
preceded only by a comma; then, when a timestamp is present, one space and
its decimal digits; with no trailing newline. The spec's example point
renders to `swap,host=server01,name=disk0 in=3i,out=4i 1`. -/
theorem serializer_layout_C3 (p : DataPoint) (_hf : p.fields ≠ []) :
    p.lineProtocol = lineProtocolSpec p
      ∧ ((((((DataPoint.builder "swap").tag "host" "server01").tag "name"
            "disk0").field "in" (FieldValue.I64 3)).field "out"
            (FieldValue.I64 4)).setTimestamp 1).build.map DataPoint.lineProtocol
          = Except.ok "swap,host=server01,name=disk0 in=3i,out=4i 1" :=
  ⟨lineProtocol_eq_spec p, rfl⟩

/-- Witness for C3: a concrete one-field point, rendered. -/
theorem serializer_layout_C3_witness :
    (⟨Escaped.fromString "m", [], [(Escaped.fromString "f", FieldValue.I64 1)],
        none⟩ : DataPoint).lineProtocol
      = lineProtocolSpec ⟨Escaped.fromString "m", [],
          [(Escaped.fromString "f", FieldValue.I64 1)], none⟩ :=
  (serializer_layout_C3 ⟨Escaped.fromString "m", [],
      [(Escaped.fromString "f", FieldValue.I64 1)], none⟩ (by decide)).1

/-- C5: for any collection of tag and field entries with distinct keys,
inserting them into a builder in any order yields the same builder, whose
tag and field maps are strictly sorted in ascending raw-key order, and
hence the same rendered line for the built point. -/
theorem sorted_determinism_C5 (b : DataPointBuilder)
    (tl₁ tl₂ : List (String × String)) (fl₁ fl₂ : List (String × FieldValue))
    (hpt : tl₁.Perm tl₂) (hpf : fl₁.Perm fl₂)
    (hnt : (tl₁.map Prod.fst).Nodup) (hnf : (fl₁.map Prod.fst).Nodup)
    (hst : mapSorted b.tags) (hsf : mapSorted b.fields) :
    b.insertAll tl₁ fl₁ = b.insertAll tl₂ fl₂
      ∧ mapSorted (b.insertAll tl₁ fl₁).tags
      ∧ mapSorted (b.insertAll tl₁ fl₁).fields
      ∧ (b.insertAll tl₁ fl₁).build.map DataPoint.lineProtocol
          = (b.insertAll tl₂ fl₂).build.map DataPoint.lineProtocol := by
  have hcomp : ∀ (tl : List (String × String)) (fl : List (String × FieldValue)),
      b.insertAll tl fl
        = ⟨b.measurement,
            mapFromPairs b.tags (tl.map fun kv => (kv.1, Escaped.fromString kv.2)),
            mapFromPairs b.fields fl, b.timestamp⟩ := by
    intro tl fl
    unfold DataPointBuilder.insertAll
    rw [foldl_tag_components, foldl_field_components]
  have hmapfst : ∀ (l : List (String × String)),
      ((l.map fun kv => ((kv.1 : String), (Escaped.fromString kv.2 : EscapedTagValue))).map
        Prod.fst) = l.map Prod.fst := by
    intro l
    rw [List.map_map]
    rfl
  have htags : mapFromPairs b.tags (tl₁.map fun kv => (kv.1, Escaped.fromString kv.2))
      = mapFromPairs b.tags (tl₂.map fun kv => (kv.1, Escaped.fromString kv.2)) := by
    refine mapFromPairs_perm (hpt.map _) ?_ b.tags hst
    rw [hmapfst]
    exact hnt
  have hflds : mapFromPairs b.fields fl₁ = mapFromPairs b.fields fl₂ :=
    mapFromPairs_perm hpf hnf b.fields hsf
  have heq : b.insertAll tl₁ fl₁ = b.insertAll tl₂ fl₂ := by
    rw [hcomp tl₁ fl₁, hcomp tl₂ fl₂, htags, hflds]
  refine ⟨heq, ?_, ?_, by rw [heq]⟩
  · rw [hcomp tl₁ fl₁]
    exact mapSorted_mapFromPairs _ _ hst
  · rw [hcomp tl₁ fl₁]
    exact mapSorted_mapFromPairs _ _ hsf

/-- Witness for C5: two insertion orders of the same two tags and two fields
produce the same builder. -/
theorem sorted_determinism_C5_witness :
    (DataPoint.builder "m").insertAll [("b", "1"), ("a", "2")]
        [("y", FieldValue.I64 1), ("x", FieldValue.Bool true)]
      = (DataPoint.builder "m").insertAll [("a", "2"), ("b", "1")]
          [("x", FieldValue.Bool true), ("y", FieldValue.I64 1)] :=
  (sorted_determinism_C5 (DataPoint.builder "m")
    [("b", "1"), ("a", "2")] [("a", "2"), ("b", "1")]
    [("y", FieldValue.I64 1), ("x", FieldValue.Bool true)]
    [("x", FieldValue.Bool true), ("y", FieldValue.I64 1)]
    (by decide) (by decide) (by decide) (by decide) (by decide) (by decide)).1

/-- C9: rendering is panic-free for every raw string, multi-byte characters
included: each delimiter occupies exactly one byte in UTF-8, and both byte
offsets used to slice around a match (the match position and the position
one byte past it) lie on character boundaries of the encoding; rendering is
total, producing the specification's escaping on any string. -/
theorem render_slicing_safe_C9 (K : EscKind) (s : List Char) (i : Nat)
    (h : i < s.length) (hd : s.get ⟨i, h⟩ ∈ DELIMITERS K) :
    utf8Len (s.get ⟨i, h⟩) = 1
      ∧ isCharBoundary s (byteIdx s i)
      ∧ isCharBoundary s (byteIdx s i + utf8Len (s.get ⟨i, h⟩))
      ∧ escapedFmt (DELIMITERS K) s = escapeSpecWords (DELIMITERS K) s := by
  have hall : ∀ c ∈ DELIMITERS K, utf8Len c = 1 := by
    cases K <;> decide
  exact ⟨hall _ hd, ⟨i, le_of_lt h, rfl⟩, ⟨i + 1, h, byteIdx_succ s i h⟩,
    escapedFmt_eq_spec _ _⟩

/-- Witness for C9: the comma at index 2 of a string with a two-byte
character before it. -/
theorem render_slicing_safe_C9_witness :
    utf8Len (['a', 'é', ','].get ⟨2, by decide⟩) = 1
      ∧ isCharBoundary ['a', 'é', ','] (byteIdx ['a', 'é', ','] 2)
      ∧ isCharBoundary ['a', 'é', ','] (byteIdx ['a', 'é', ','] 2
          + utf8Len (['a', 'é', ','].get ⟨2, by decide⟩))
      ∧ escapedFmt (DELIMITERS .Measurement) ['a', 'é', ',']
          = escapeSpecWords (DELIMITERS .Measurement) ['a', 'é', ','] :=
  render_slicing_safe_C9 .Measurement ['a', 'é', ','] 2 (by decide) (by decide)

/-- C10: no content validation is performed: construction accepts every
string, the empty string included; a builder with at least one field always
builds, whatever its measurement and keys; and an empty measurement yields
a line starting with the space before the fields, or with a comma when tags
are present. -/
theorem no_content_validation_C10 :
    (∀ (K : EscKind) (s : String), (Escaped.fromString s : Escaped K).raw = s)
      ∧ (∀ b : DataPointBuilder, b.fields ≠ [] →
          b.build = Except.ok ⟨b.measurement, b.tags, b.fields, b.timestamp⟩)
      ∧ ((DataPoint.builder "").field "f" (FieldValue.I64 1)).build.map
          DataPoint.lineProtocol = Except.ok " f=1i"
      ∧ (((DataPoint.builder "").tag "t" "v").field "f" (FieldValue.I64 1)).build.map
          DataPoint.lineProtocol = Except.ok ",t=v f=1i" := by
  refine ⟨fun K s => rfl, ?_, rfl, rfl⟩
  intro b hb
  obtain ⟨m, tg, fl, ts⟩ := b
  cases fl with
  | nil => exact absurd rfl hb
  | cons f fs => rfl

/-- Witness for C10: the empty-measurement, one-field builder builds. -/
theorem no_content_validation_C10_witness :
    ((DataPoint.builder "").field "f" (FieldValue.I64 1)).build
      = Except.ok ⟨Escaped.fromString "", [],
          [(Escaped.fromString "f", FieldValue.I64 1)], none⟩ :=
  no_content_validation_C10.2.1 ((DataPoint.builder "").field "f" (FieldValue.I64 1))
    (by decide)

/-- Witness for C2: the empty-fields builder fails carrying its state; one
field suffices to build. -/
theorem build_fails_iff_no_fields_C2_witness :
    (DataPoint.builder "m").build
        = Except.error (DataPointError.AtLeastOneFieldRequired (DataPoint.builder "m"))
      ∧ ((DataPoint.builder "m").field "f" (FieldValue.I64 1)).build
        = Except.ok ⟨Escaped.fromString "m", [],
            [(Escaped.fromString "f", FieldValue.I64 1)], none⟩ :=
  ⟨(build_fails_iff_no_fields_C2 (DataPoint.builder "m")).1.mpr rfl,
    (build_fails_iff_no_fields_C2 ((DataPoint.builder "m").field "f"
      (FieldValue.I64 1))).2.2 (by decide)⟩

/-- Witness for C6: a delimiter-free string renders unchanged. -/
theorem no_delimiters_identity_C6_witness :
    (Escaped.fromString "abc" : Escaped .Measurement).render = "abc"
      ∧ (Escaped.fromString "" : Escaped .Measurement).render = "" :=
  no_delimiters_identity_C6 .Measurement "abc" (by decide)

/-- Witness for C8: setting tag `a` makes it look up to its value and leaves
key `z` alone. -/
theorem setters_last_write_wins_C8_witness :
    mapLookup "a" (((DataPoint.builder "m").tag "a" "1").tags)
        = some (Escaped.fromString "1")
      ∧ mapLookup "z" (((DataPoint.builder "m").tag "a" "1").tags)
        = mapLookup "z" (DataPoint.builder "m").tags :=
  ⟨(setters_last_write_wins_C8 (DataPoint.builder "m") "a" "1" "f"
      (FieldValue.I64 1) 0).1,
    (setters_last_write_wins_C8 (DataPoint.builder "m") "a" "1" "f"
      (FieldValue.I64 1) 0).2.1 "z" (by decide)⟩

end Influxdb2Client
